import Mathlib

/-!
Shallow embedding of the `utest` unit-test registration and execution engine
(`src/utest.h` / `src/utest.cpp`, the `cc0::utest` variant, which is the
current code; the older `utest::` variant concatenated in the same files is an
outdated duplicate).

Stored run functions `bool (*)()` are embedded as the `Bool` they return;
optional setup/teardown hooks `bool (*)()` that may be null are embedded as
`Option Bool` (`none` = hook absent, `some b` = hook present and returning
`b`).  Execution is pure, so the observable side effects the claims talk
about (which units were invoked, whether teardown was invoked, the per-name
trace of a named run) are returned explicitly as part of each function's
result.
-/

set_option maxHeartbeats 1000000

namespace UTest

/-- One registered unit test (`TestItem` in `utest.cpp`): the result of its
run function, its display name, and the `must_pass` flag. -/
structure TestItem where
  test : Bool
  name : String
  must_pass : Bool
deriving DecidableEq

/-- A test context (`ContextItem` in `utest.cpp`): name, optional setup hook
`init`, optional teardown hook `cleanup`, the ordered list of registered
tests, and the display alignment width `align_chars`. -/
structure ContextItem where
  name : String
  init : Option Bool
  cleanup : Option Bool
  tests : List TestItem
  align_chars : Nat
deriving DecidableEq

/-- The process-wide registry (`ContextList` in `utest.cpp`): the ordered
list of contexts and the `last_used` single-entry lookup cache, embedded as
an index into `contexts`. -/
structure Registry where
  contexts : List ContextItem
  last_used : Option Nat
deriving DecidableEq

/-- The registry before any registration: empty list, null cache. -/
def emptyRegistry : Registry := { contexts := [], last_used := none }

/-- Whether an optional hook exists and returns false (`c->init != nullptr
&& !c->init()` in `RunContext`). -/
def hookFails : Option Bool → Bool
  | some b => !b
  | none => false

/-- Outcome of running one context: the aggregate status `RunContext`
returns, the number of units whose run function was invoked, and whether the
teardown hook was invoked. -/
structure RunContextResult where
  status : Bool
  unitsExecuted : Nat
  ranCleanup : Bool
deriving DecidableEq

/-- Source `RunTests` (utest.cpp): iterate the tests in order; a failing test
clears the status, and a failing test with `must_pass` set breaks out of the
loop.  Returns the aggregate status together with how many tests were
invoked. -/
def RunTests : List TestItem → Bool × Nat
  | [] => (true, 0)
  | t :: rest =>
    if t.test = false then
      if t.must_pass then (false, 1)
      else (false, (RunTests rest).2 + 1)
    else ((RunTests rest).1, (RunTests rest).2 + 1)

/-- Source `RunContext` (utest.cpp): the source condition is
`(c->init != nullptr && !c->init()) || !RunTests(c->tests, c->align_chars)`,
so by `||` short-circuiting `RunTests` is invoked only when the setup hook
did not fail.  The teardown hook is invoked whenever it exists, and a failing
teardown clears the status. -/
def RunContext (c : ContextItem) : RunContextResult :=
  let initFail := hookFails c.init
  let tests := if initFail then (true, 0) else RunTests c.tests
  { status := !initFail && tests.1 && !hookFails c.cleanup
    unitsExecuted := tests.2
    ranCleanup := c.cleanup.isSome }

/-- The loop body of `Run( void )`: visit every context in list order,
ANDing the `RunContext` results; also returns the per-context status trace
in visit order. -/
def RunAllLoop : List ContextItem → Bool × List Bool
  | [] => (true, [])
  | c :: rest =>
    ((RunContext c).status && (RunAllLoop rest).1,
     (RunContext c).status :: (RunAllLoop rest).2)

/-- Source `int cc0::utest::Run( void )`: run every registered context, return exit
status 0 when all succeeded and 1 otherwise, together with the trace. -/
def Run (r : Registry) : Nat × List Bool :=
  if (RunAllLoop r.contexts).1 then (0, (RunAllLoop r.contexts).2)
  else (1, (RunAllLoop r.contexts).2)

/-- The scan `while` loop inside `FindContext`: first index (and element)
whose name equals `name`, in list order. -/
def FindLoop : List ContextItem → String → Option (Nat × ContextItem)
  | [], _ => none
  | c :: rest, n =>
    if c.name = n then some (0, c)
    else (FindLoop rest n).map (fun p => (p.1 + 1, p.2))

/-- The cache test at the top of `FindContext`: the scan is skipped exactly
when `last_used` points at a context whose name equals `name`. -/
def cacheHit (r : Registry) (n : String) : Option (Nat × ContextItem) :=
  match r.last_used with
  | some i =>
    match r.contexts[i]? with
    | some c => if c.name = n then some (i, c) else none
    | none => none
  | none => none

/-- Source `FindContext` (utest.cpp): return the cached context when the cache
matches; otherwise scan the list and store the result (or null) in
`last_used`. -/
def FindContext (r : Registry) (n : String) : Option (Nat × ContextItem) × Registry :=
  match cacheHit r n with
  | some p => (some p, r)
  | none =>
    (FindLoop r.contexts n,
     { r with last_used := (FindLoop r.contexts n).map (fun p => p.1) })

/-- A freshly constructed `ContextItem(context_name)`: null hooks, no tests,
`align_chars` zero. -/
def mkContext (n : String) : ContextItem :=
  { name := n, init := none, cleanup := none, tests := [], align_chars := 0 }

/-- Source `FindOrAddContext` (utest.cpp): find the context, appending a fresh one
at the end of the list (and caching it) when absent. -/
def FindOrAddContext (r : Registry) (n : String) : (Nat × ContextItem) × Registry :=
  match FindContext r n with
  | (some p, r1) => (p, r1)
  | (none, r1) =>
    ((r1.contexts.length, mkContext n),
     { contexts := r1.contexts ++ [mkContext n]
       last_used := some r1.contexts.length })

/-- Replace the element at index `i` (when present) by its image under
`f`. -/
def modifyAt : List ContextItem → Nat → (ContextItem → ContextItem) → List ContextItem
  | [], _, _ => []
  | c :: rest, 0, f => f c :: rest
  | c :: rest, i + 1, f => c :: modifyAt rest i f

/-- The mutation `AddTest` applies to the found-or-created context: append
the new test, and raise `align_chars` to the new test's name length plus 3
when that is larger.  The source computes
`c->align_chars = c->align_chars > uint32_t(name.size()) + 3 ? c->align_chars
: uint32_t(name.size()) + 3`: the narrowing cast is `name.size() % 2^32` and
the `+ 3` is `uint32_t` arithmetic, so the candidate width is
`(length % 2^32 + 3) % 2^32`; `align_chars` itself is a `uint32_t` and this
stored value is already reduced mod `2^32`. -/
def addTestToCtx (c : ContextItem) (fn : Bool) (un : String) (mp : Bool) : ContextItem :=
  { c with
    tests := c.tests ++ [{ test := fn, name := un, must_pass := mp }]
    align_chars :=
      if c.align_chars > (un.length % 2 ^ 32 + 3) % 2 ^ 32 then c.align_chars
      else (un.length % 2 ^ 32 + 3) % 2 ^ 32 }

/-- Source `bool cc0::utest::AddTest(fn, name, context, test_must_pass)`: find or
create the context, append the test to it, update its `align_chars`.  (The
C++ function also returns `true`, used only as a static initializer.) -/
def AddTest (r : Registry) (fn : Bool) (un cn : String) (mp : Bool) : Registry :=
  match FindOrAddContext r cn with
  | (p, r1) =>
    { r1 with contexts := modifyAt r1.contexts p.1 (fun c => addTestToCtx c fn un mp) }

/-- The loop body of `Run(const char **, uint32_t)`: look each name up
(mutating the cache), run the context when found, report "not found" and
clear the status when absent.  The trace records, per name in order, `some
status` for a found-and-run context and `none` for a "not found" report. -/
def RunNamedLoop (r : Registry) : List String → Bool × Registry × List (Option Bool)
  | [] => (true, r, [])
  | n :: rest =>
    match FindContext r n with
    | (some p, r1) =>
      ((RunContext p.2).status && (RunNamedLoop r1 rest).1,
       (RunNamedLoop r1 rest).2.1,
       some (RunContext p.2).status :: (RunNamedLoop r1 rest).2.2)
    | (none, r1) =>
      (false,
       (RunNamedLoop r1 rest).2.1,
       none :: (RunNamedLoop r1 rest).2.2)

/-- Source `int cc0::utest::Run(const char **contexts, uint32_t count)`: process
the given names in caller order, returning exit status 0 when nothing
failed and 1 otherwise, together with the per-name trace. -/
def RunNamed (r : Registry) (names : List String) : Nat × List (Option Bool) :=
  if (RunNamedLoop r names).1 then (0, (RunNamedLoop r names).2.2)
  else (1, (RunNamedLoop r names).2.2)

/-- One registration event: the arguments of a single `AddTest` call. -/
structure Reg where
  fn : Bool
  name : String
  context : String
  must_pass : Bool
deriving DecidableEq

/-- The `TestItem` a registration event stores. -/
def toTest (e : Reg) : TestItem :=
  { test := e.fn, name := e.name, must_pass := e.must_pass }

/-- Apply a sequence of registrations to a registry, in order. -/
def applyRegs (r : Registry) : List Reg → Registry
  | [] => r
  | e :: rest => applyRegs (AddTest r e.fn e.name e.context e.must_pass) rest

/-- The names of a registry's contexts, in list order. -/
def namesOf (cs : List ContextItem) : List String := cs.map (fun c => c.name)

/-- First context with the given name, in list order. -/
def lookupCtx : List ContextItem → String → Option ContextItem
  | [], _ => none
  | c :: rest, n => if c.name = n then some c else lookupCtx rest n

/-- The tests registered under a context name (empty when the context does
not exist). -/
def testsOf (r : Registry) (n : String) : List TestItem :=
  match lookupCtx r.contexts n with
  | some c => c.tests
  | none => []

/-- Spec-side reference (follows the spec's words, to be compared with the
registry built from the source): the distinct elements of a list in
first-seen order, relative to a set of names already seen. -/
def specFirstSeenFrom (seen : List String) : List String → List String
  | [] => []
  | n :: rest =>
    if n ∈ seen then specFirstSeenFrom seen rest
    else n :: specFirstSeenFrom (seen ++ [n]) rest

/-- Spec-side reference: distinct context names in the order they were first
seen. -/
def specFirstSeen (l : List String) : List String := specFirstSeenFrom [] l

/-- Spec-side reference: the tests registered under context name `n`, in
registration order. -/
def specUnitsFor (n : String) : List Reg → List TestItem
  | [] => []
  | e :: rest =>
    if e.context = n then toTest e :: specUnitsFor n rest
    else specUnitsFor n rest

/-- Per-run assertion state of one test instance (`UTestBase`): assertion
counter and success flag, initialized to zero and true by the
constructor. -/
structure TestOutcome where
  assert_count : Nat
  success : Bool
deriving DecidableEq

/-- The mutating operations `UTestBase` exposes to a test body:
`IncrementAssertCount` and `Fail`. -/
inductive UOp where
  | incrementAssertCount
  | recordFail
deriving DecidableEq

/-- Effect of one `UTestBase` mutator on the per-run outcome state. -/
def applyOp : TestOutcome → UOp → TestOutcome
  | st, .incrementAssertCount => { st with assert_count := st.assert_count + 1 }
  | st, .recordFail => { st with success := false }

/-- Apply a sequence of `UTestBase` mutators in order. -/
def applyOps (st : TestOutcome) (ops : List UOp) : TestOutcome :=
  ops.foldl applyOp st

/-- The state `UTestBase`'s constructor establishes. -/
def initOutcome : TestOutcome := { assert_count := 0, success := true }

/-- A test body as a sequence of `UTEST_ASSERT(l, op, r)` macro expansions,
each embedded as the `Bool` its predicate `(l) op (r)` evaluates to: the
macro first calls `IncrementAssertCount()`, then on a false predicate calls
`Fail()` and returns from the body, skipping the remaining assertions. -/
def runBody : List Bool → TestOutcome → TestOutcome
  | [], st => st
  | a :: rest, st =>
    if a = false then applyOp (applyOp st .incrementAssertCount) .recordFail
    else runBody rest (applyOp st .incrementAssertCount)

/-- Wrapper `run_##unit_class` as generated by `UTEST_END`: construct the instance,
run the body, return `Succeeded()`. -/
def runUnitBody (asserts : List Bool) : Bool :=
  (runBody asserts initOutcome).success

/-! ### Executor lemmas -/

lemma runAllLoop_fst (cs : List ContextItem) :
    (RunAllLoop cs).1 = cs.all (fun c => (RunContext c).status) := by
  induction cs with
  | nil => rfl
  | cons c rest ih => simp [RunAllLoop, ih]

lemma runAllLoop_snd (cs : List ContextItem) :
    (RunAllLoop cs).2 = cs.map (fun c => (RunContext c).status) := by
  induction cs with
  | nil => rfl
  | cons c rest ih => simp [RunAllLoop, ih]

lemma run_snd (r : Registry) :
    (Run r).2 = r.contexts.map (fun c => (RunContext c).status) := by
  unfold Run
  split <;> exact runAllLoop_snd r.contexts

lemma run_fst (r : Registry) :
    (Run r).1 = if r.contexts.all (fun c => (RunContext c).status) then 0 else 1 := by
  unfold Run
  rw [runAllLoop_fst]
  split <;> simp_all

lemma run_fst_one_of_fail (r : Registry) (c : ContextItem) (hc : c ∈ r.contexts)
    (h : (RunContext c).status = false) : (Run r).1 = 1 := by
  rw [run_fst]
  cases hall : r.contexts.all (fun x => (RunContext x).status) with
  | false => simp
  | true =>
    have := List.all_eq_true.mp hall c hc
    rw [h] at this
    cases this

/-- C10: running with nothing to run succeeds: `Run` on a registry with no
contexts returns exit status 0, and `Run(names, count)` with an empty name
list returns exit status 0. -/
theorem C10_empty_runs_succeed :
    (∀ lu, (Run { contexts := [], last_used := lu }).1 = 0)
    ∧ (∀ r : Registry, (RunNamed r []).1 = 0) :=
  ⟨fun _ => rfl, fun _ => rfl⟩

/-- C5: `Run( void )` invokes `RunContext` on every registered context in
registry insertion order (the trace is exactly the per-context statuses in
list order, so every context is attempted regardless of earlier failures),
and the exit status is 0 iff every context succeeded, 1 otherwise. -/
theorem C5_run_all_visits_every_context (r : Registry) :
    (Run r).2 = r.contexts.map (fun c => (RunContext c).status)
    ∧ ((Run r).1 = 0 ↔ ∀ c ∈ r.contexts, (RunContext c).status = true)
    ∧ ((Run r).1 = 0 ∨ (Run r).1 = 1) := by
  refine ⟨run_snd r, ?_, ?_⟩
  · rw [run_fst]
    by_cases h : r.contexts.all (fun c => (RunContext c).status) = true
    · simp only [h, if_true]
      simpa using List.all_eq_true.mp h
    · have h2 : ¬ ∀ c ∈ r.contexts, (RunContext c).status = true := by
        intro hh
        exact h (List.all_eq_true.mpr hh)
      simp [h, h2]
  · rw [run_fst]
    split <;> simp

/-- Concrete context whose setup hook exists and returns false, with one
registered unit and a teardown hook. -/
def setupFailCtx : ContextItem :=
  { name := "ctx", init := some false, cleanup := some true,
    tests := [{ test := true, name := "unit1", must_pass := false }],
    align_chars := 8 }

/-- C1 counterexample: a context whose setup hook returns false has one
registered unit, yet `RunContext` executes zero units — the claim that the
units still run is false on the code (the `||` in the source
short-circuits past `RunTests`). -/
theorem C1_counterexample :
    setupFailCtx.tests.length = 1
    ∧ (RunContext setupFailCtx).unitsExecuted = 0 := by
  decide

/-- C1 amended: for every context whose setup hook exists and returns
false, `RunContext` marks the context's result false and executes none of
the context's units (`RunTests` is skipped by the short-circuiting `||`),
but the teardown hook still runs. -/
theorem C1_setup_failure (c : ContextItem) (h : hookFails c.init = true) :
    (RunContext c).status = false
    ∧ (RunContext c).unitsExecuted = 0
    ∧ (RunContext c).ranCleanup = c.cleanup.isSome := by
  unfold RunContext
  simp [h]

/-- C1 witness: the amended statement evaluated on the concrete
setup-failing context. -/
theorem C1_setup_failure_witness :
    hookFails setupFailCtx.init = true
    ∧ ((RunContext setupFailCtx).status = false
       ∧ (RunContext setupFailCtx).unitsExecuted = 0
       ∧ (RunContext setupFailCtx).ranCleanup = setupFailCtx.cleanup.isSome) :=
  ⟨by decide, C1_setup_failure setupFailCtx (by decide)⟩

/-- C8: within a single run of one test unit, once `succeeded` is false no
available operation (`IncrementAssertCount`, `Fail`) ever sets it back to
true. -/
theorem C8_success_never_reverts (ops : List UOp) (st : TestOutcome)
    (h : st.success = false) : (applyOps st ops).success = false := by
  induction ops generalizing st with
  | nil => exact h
  | cons op rest ih =>
    show (applyOps (applyOp st op) rest).success = false
    apply ih
    cases op <;> simp [applyOp, h]

/-- C8 witness: a failed outcome stays failed across a concrete operation
sequence. -/
theorem C8_success_never_reverts_witness :
    ({ assert_count := 2, success := false } : TestOutcome).success = false
    ∧ (applyOps { assert_count := 2, success := false }
        [UOp.incrementAssertCount, UOp.recordFail,
         UOp.incrementAssertCount]).success = false :=
  ⟨rfl, C8_success_never_reverts _ _ rfl⟩

/-! ### Assertion-macro lemmas -/

lemma runBody_all_true (pre : List Bool) (h : ∀ a ∈ pre, a = true) (st : TestOutcome) :
    runBody pre st = ⟨st.assert_count + pre.length, st.success⟩ := by
  induction pre generalizing st with
  | nil => simp [runBody]
  | cons a rest ih =>
    have ha : a = true := h a (List.mem_cons_self a rest)
    have hrest : ∀ b ∈ rest, b = true := fun b hb => h b (List.mem_cons_of_mem a hb)
    subst ha
    rw [show runBody (true :: rest) st = runBody rest (applyOp st .incrementAssertCount)
          from by simp [runBody]]
    rw [ih hrest]
    simp only [applyOp, TestOutcome.mk.injEq, List.length_cons]
    exact ⟨by omega, trivial⟩

lemma runBody_first_false (pre post : List Bool) (h : ∀ a ∈ pre, a = true)
    (st : TestOutcome) :
    runBody (pre ++ false :: post) st
      = ⟨st.assert_count + pre.length + 1, false⟩ := by
  induction pre generalizing st with
  | nil => simp [runBody, applyOp]
  | cons a rest ih =>
    have ha : a = true := h a (List.mem_cons_self a rest)
    have hrest : ∀ b ∈ rest, b = true := fun b hb => h b (List.mem_cons_of_mem a hb)
    subst ha
    rw [show runBody ((true :: rest) ++ false :: post) st
          = runBody (rest ++ false :: post) (applyOp st .incrementAssertCount)
          from by simp [runBody]]
    rw [ih hrest]
    simp only [applyOp, TestOutcome.mk.injEq, List.length_cons]
    exact ⟨by omega, trivial⟩

/-- C4: each `UTEST_ASSERT` that is evaluated increments `assert_count`
(the final count equals the number of assertions evaluated); a false
assertion marks the instance failed and returns from the body, so the
result does not depend on the assertions after the first false one, while
an all-true body evaluates every assertion and stays successful. -/
theorem C4_assert_counts_and_short_circuits (pre post : List Bool)
    (h : ∀ a ∈ pre, a = true) :
    runBody (pre ++ false :: post) initOutcome
      = { assert_count := pre.length + 1, success := false }
    ∧ runBody pre initOutcome = { assert_count := pre.length, success := true } := by
  constructor
  · rw [runBody_first_false pre post h]
    simp [initOutcome]
  · rw [runBody_all_true pre h]
    simp [initOutcome]

/-- C4 witness: two passing assertions followed by a failing one and an
unevaluated trailing assertion. -/
theorem C4_assert_counts_witness :
    (∀ a ∈ [true, true], a = true)
    ∧ (runBody ([true, true] ++ false :: [true]) initOutcome
        = { assert_count := 3, success := false }
       ∧ runBody [true, true] initOutcome
        = { assert_count := 2, success := true }) :=
  ⟨by decide, C4_assert_counts_and_short_circuits [true, true] [true] (by decide)⟩

/-! ### Must-pass short-circuit -/

lemma runTests_stops (ts : List TestItem) (k : Nat) (tk : TestItem)
    (hk : ts[k]? = some tk) (hmp : tk.must_pass = true) (hfail : tk.test = false)
    (hprev : ((ts.take k).all fun t => !t.must_pass || t.test) = true) :
    RunTests ts = (false, k + 1) := by
  induction ts generalizing k with
  | nil => simp at hk
  | cons t rest ih =>
    cases k with
    | zero =>
      simp only [List.getElem?_cons_zero, Option.some.injEq] at hk
      subst hk
      simp [RunTests, hfail, hmp]
    | succ k =>
      have hk2 : rest[k]? = some tk := by simpa using hk
      simp only [List.take_succ_cons, List.all_cons, Bool.and_eq_true] at hprev
      have ihres := ih k hk2 hprev.2
      cases htest : t.test with
      | true => simp [RunTests, htest, ihres]
      | false =>
        have hmpf : t.must_pass = false := by
          cases hmpt : t.must_pass
          · rfl
          · rw [hmpt, htest] at hprev
            simp at hprev
        simp [RunTests, htest, hmpf, ihres]

/-- C3: if the `k`-th unit of a context has `must_pass` set and fails, and
no earlier unit in the context fails with `must_pass` set (and the setup
hook does not fail), then exactly units `0..k` execute — units `k+1..n` do
not run — while the teardown hook still runs, every sibling context is
still attempted by `Run`, and the aggregate exit status is 1. -/
theorem C3_must_pass_short_circuit (r : Registry) (c : ContextItem) (k : Nat)
    (tk : TestItem) (hc : c ∈ r.contexts) (hinit : hookFails c.init = false)
    (hk : c.tests[k]? = some tk)
    (hmp : tk.must_pass = true) (hfail : tk.test = false)
    (hprev : ((c.tests.take k).all fun t => !t.must_pass || t.test) = true) :
    (RunContext c).unitsExecuted = k + 1
    ∧ (RunContext c).ranCleanup = c.cleanup.isSome
    ∧ (RunContext c).status = false
    ∧ (Run r).2.length = r.contexts.length
    ∧ (Run r).1 = 1 := by
  have hrt := runTests_stops c.tests k tk hk hmp hfail hprev
  have hstat : (RunContext c).status = false := by
    simp [RunContext, hinit, hrt]
  refine ⟨?_, rfl, hstat, ?_, run_fst_one_of_fail r c hc hstat⟩
  · simp [RunContext, hinit, hrt]
  · simp [run_snd]

/-- The context used by the C3 witness: `u2` fails with `must_pass` set. -/
def mpDemoCtx : ContextItem :=
  { name := "C", init := none, cleanup := some true,
    tests :=
      [ { test := true, name := "u1", must_pass := false },
        { test := false, name := "u2", must_pass := true },
        { test := true, name := "u3", must_pass := false } ],
    align_chars := 5 }

/-- The registry used by the C3 witness: the failing context plus a
sibling. -/
def mpDemoRegistry : Registry :=
  { contexts :=
      [ mpDemoCtx,
        { name := "D", init := none, cleanup := none,
          tests := [ { test := true, name := "v1", must_pass := false } ],
          align_chars := 5 } ],
    last_used := none }

/-- C3 witness: the short-circuit statement evaluated on the concrete
registry. -/
theorem C3_must_pass_short_circuit_witness :
    (mpDemoCtx ∈ mpDemoRegistry.contexts
      ∧ hookFails mpDemoCtx.init = false
      ∧ mpDemoCtx.tests[1]? = some { test := false, name := "u2", must_pass := true }
      ∧ ((mpDemoCtx.tests.take 1).all fun t => !t.must_pass || t.test) = true)
    ∧ ((RunContext mpDemoCtx).unitsExecuted = 2
       ∧ (RunContext mpDemoCtx).ranCleanup = mpDemoCtx.cleanup.isSome
       ∧ (RunContext mpDemoCtx).status = false
       ∧ (Run mpDemoRegistry).2.length = mpDemoRegistry.contexts.length
       ∧ (Run mpDemoRegistry).1 = 1) :=
  ⟨by decide,
   C3_must_pass_short_circuit mpDemoRegistry mpDemoCtx 1
     { test := false, name := "u2", must_pass := true } (by decide) (by decide)
     (by decide) (by decide) (by decide) (by decide)⟩

/-! ### Registry lookup lemmas -/

lemma mem_of_get_eq {cs : List ContextItem} {i : Nat} {c : ContextItem}
    (h : cs[i]? = some c) : c ∈ cs := by
  induction cs generalizing i with
  | nil => simp at h
  | cons a rest ih =>
    cases i with
    | zero =>
      simp only [List.getElem?_cons_zero, Option.some.injEq] at h
      subst h
      exact List.mem_cons_self a rest
    | succ i => exact List.mem_cons_of_mem a (ih (by simpa using h))

lemma findLoop_valid {cs : List ContextItem} {n : String} :
    ∀ {p : Nat × ContextItem}, FindLoop cs n = some p →
      cs[p.1]? = some p.2 ∧ p.2.name = n := by
  induction cs with
  | nil => intro p h; simp [FindLoop] at h
  | cons c rest ih =>
    intro p h
    rw [FindLoop] at h
    by_cases hc : c.name = n
    · rw [if_pos hc] at h
      injection h with h
      subst h
      exact ⟨by simp, hc⟩
    · rw [if_neg hc] at h
      rcases hq : FindLoop rest n with _ | q
      · rw [hq] at h; simp at h
      · rw [hq] at h
        simp only [Option.map_some'] at h
        injection h with h
        subst h
        obtain ⟨h1, h2⟩ := ih hq
        exact ⟨by simpa using h1, h2⟩

lemma findLoop_none_iff {cs : List ContextItem} {n : String} :
    FindLoop cs n = none ↔ ∀ c ∈ cs, c.name ≠ n := by
  induction cs with
  | nil => simp [FindLoop]
  | cons c rest ih =>
    by_cases hc : c.name = n
    · simp [FindLoop, hc]
    · simp [FindLoop, hc, ih]

lemma cacheHit_valid {r : Registry} {n : String} {p : Nat × ContextItem}
    (h : cacheHit r n = some p) :
    r.contexts[p.1]? = some p.2 ∧ p.2.name = n := by
  rcases hl : r.last_used with _ | i
  · simp [cacheHit, hl] at h
  · rcases hg : r.contexts[i]? with _ | c
    · simp [cacheHit, hl, hg] at h
    · by_cases hc : c.name = n
      · have h2 : some (i, c) = some p := by
          rw [← h]; simp [cacheHit, hl, hg, hc]
        injection h2 with h2
        subst h2
        exact ⟨hg, hc⟩
      · simp [cacheHit, hl, hg, hc] at h

lemma findContext_contexts (r : Registry) (n : String) :
    (FindContext r n).2.contexts = r.contexts := by
  rcases h : cacheHit r n with _ | p <;> simp [FindContext, h]

lemma findContext_valid {r : Registry} {n : String} {p : Nat × ContextItem}
    (h : (FindContext r n).1 = some p) :
    r.contexts[p.1]? = some p.2 ∧ p.2.name = n := by
  rcases hch : cacheHit r n with _ | q
  · have h2 : FindLoop r.contexts n = some p := by
      simpa [FindContext, hch] using h
    exact findLoop_valid h2
  · have h2 : some q = some p := by simpa [FindContext, hch] using h
    injection h2 with h2
    subst h2
    exact cacheHit_valid hch

lemma findContext_none_iff {r : Registry} {n : String} :
    (FindContext r n).1 = none ↔ ∀ c ∈ r.contexts, c.name ≠ n := by
  rcases hch : cacheHit r n with _ | q
  · rw [show (FindContext r n).1 = FindLoop r.contexts n from by simp [FindContext, hch]]
    exact findLoop_none_iff
  · have hsome : (FindContext r n).1 = some q := by simp [FindContext, hch]
    rw [hsome]
    constructor
    · intro h; exact Option.noConfusion h
    · intro hall
      obtain ⟨hg, hn⟩ := cacheHit_valid hch
      exact absurd hn (hall q.2 (mem_of_get_eq hg))

/-- C7: repeated `FindContext` calls with the same name and no intervening
registration return the same result (hence the same context identity: same
index, same element, over an unchanged `contexts` list), and never mutate
`contexts`: the second call is a fixpoint, so every further repetition
returns the same context. -/
theorem C7_find_idempotent (r : Registry) (n : String) :
    (FindContext r n).2.contexts = r.contexts
    ∧ FindContext ((FindContext r n).2) n = FindContext r n := by
  refine ⟨findContext_contexts r n, ?_⟩
  rcases hch : cacheHit r n with _ | q
  · have h1 : FindContext r n
        = (FindLoop r.contexts n,
           { r with last_used := (FindLoop r.contexts n).map (fun p => p.1) }) := by
      simp [FindContext, hch]
    rcases hfl : FindLoop r.contexts n with _ | p
    · rw [h1, hfl]
      have hch2 : cacheHit { r with last_used := (none : Option Nat) } n = none := by
        simp [cacheHit]
      simp [FindContext, hch2, hfl]
    · rw [h1, hfl]
      obtain ⟨hg, hn⟩ := findLoop_valid hfl
      have hch2 : cacheHit { r with last_used := some p.1 } n = some p := by
        simp [cacheHit, hg, hn]
      simp [FindContext, hch2]
  · have h1 : FindContext r n = (some q, r) := by simp [FindContext, hch]
    rw [h1]
    exact h1

/-! ### Named-run lemmas -/

lemma runNamedLoop_length (names : List String) (r : Registry) :
    (RunNamedLoop r names).2.2.length = names.length := by
  induction names generalizing r with
  | nil => rfl
  | cons n rest ih =>
    rcases hf : FindContext r n with ⟨res, r1⟩
    cases res <;> simp [RunNamedLoop, hf, ih]

lemma runNamedLoop_missing :
    ∀ (names : List String) (r : Registry) (p : Nat) (n : String),
      names[p]? = some n → (∀ c ∈ r.contexts, c.name ≠ n) →
      (RunNamedLoop r names).2.2[p]? = some none
      ∧ (RunNamedLoop r names).1 = false := by
  intro names
  induction names with
  | nil => intro r p n hp habs; simp at hp
  | cons m rest ih =>
    intro r p n hp habs
    rcases hf : FindContext r m with ⟨res, r1⟩
    have hc1 : r1.contexts = r.contexts := by
      have h := findContext_contexts r m
      rw [hf] at h
      exact h
    cases p with
    | zero =>
      simp only [List.getElem?_cons_zero, Option.some.injEq] at hp
      subst hp
      have hnone : (FindContext r m).1 = none := findContext_none_iff.mpr habs
      rw [hf] at hnone
      simp only at hnone
      subst hnone
      simp [RunNamedLoop, hf]
    | succ p =>
      have hp2 : rest[p]? = some n := by simpa using hp
      have habs1 : ∀ c ∈ r1.contexts, c.name ≠ n := by rw [hc1]; exact habs
      have ihres := ih r1 p n hp2 habs1
      cases res with
      | none => simp [RunNamedLoop, hf, ihres.1, ihres.2]
      | some q => simp [RunNamedLoop, hf, ihres.1, ihres.2]

/-- C2: a name passed to the named `Run` with no matching context yields a
"not found" trace entry (`none`), forces exit status 1, and does not stop
the processing of the other names (the trace covers every name). -/
theorem C2_unknown_context (r : Registry) (names : List String) (p : Nat) (n : String)
    (hp : names[p]? = some n)
    (habs : (r.contexts.all fun c => c.name != n) = true) :
    (RunNamed r names).2.length = names.length
    ∧ (RunNamed r names).2[p]? = some none
    ∧ (RunNamed r names).1 = 1 := by
  have habs2 : ∀ c ∈ r.contexts, c.name ≠ n := by
    intro c hc
    have h := List.all_eq_true.mp habs c hc
    simpa using h
  have hm := runNamedLoop_missing names r p n hp habs2
  have hlen := runNamedLoop_length names r
  unfold RunNamed
  rw [hm.2]
  simp [hlen, hm.1]

/-- Registry used by the C2 witness: a single context named "A". -/
def namedDemoRegistry : Registry :=
  { contexts :=
      [ { name := "A", init := none, cleanup := none,
          tests := [ { test := true, name := "a1", must_pass := false } ],
          align_chars := 5 } ],
    last_used := none }

/-- C2 witness: running `["missing", "A"]` reports "missing" as not found,
still processes both names, and exits 1. -/
theorem C2_unknown_context_witness :
    (["missing", "A"][0]? = some "missing"
      ∧ (namedDemoRegistry.contexts.all fun c => c.name != "missing") = true)
    ∧ ((RunNamed namedDemoRegistry ["missing", "A"]).2.length = 2
       ∧ (RunNamed namedDemoRegistry ["missing", "A"]).2[0]? = some none
       ∧ (RunNamed namedDemoRegistry ["missing", "A"]).1 = 1) :=
  ⟨⟨by decide, by decide⟩, by
    have h := C2_unknown_context namedDemoRegistry ["missing", "A"] 0 "missing"
      (by decide) (by decide)
    simpa using h⟩

/-! ### Registration lemmas -/

lemma namesOf_cons (c : ContextItem) (cs : List ContextItem) :
    namesOf (c :: cs) = c.name :: namesOf cs := rfl

lemma namesOf_append (cs ds : List ContextItem) :
    namesOf (cs ++ ds) = namesOf cs ++ namesOf ds := by
  simp [namesOf]

lemma mem_namesOf {cs : List ContextItem} {n : String} :
    n ∈ namesOf cs ↔ ∃ c ∈ cs, c.name = n := by
  simp [namesOf]

lemma namesOf_modifyAt (f : ContextItem → ContextItem)
    (hf : ∀ c, (f c).name = c.name) :
    ∀ (cs : List ContextItem) (i : Nat), namesOf (modifyAt cs i f) = namesOf cs := by
  intro cs
  induction cs with
  | nil => intro i; rfl
  | cons c rest ih =>
    intro i
    cases i with
    | zero => rw [modifyAt, namesOf_cons, namesOf_cons, hf]
    | succ i => rw [modifyAt, namesOf_cons, namesOf_cons, ih]

lemma modifyAt_append_length (cs : List ContextItem) (x : ContextItem)
    (f : ContextItem → ContextItem) :
    modifyAt (cs ++ [x]) cs.length f = cs ++ [f x] := by
  induction cs with
  | nil => rfl
  | cons c rest ih =>
    rw [List.cons_append, List.length_cons, modifyAt, ih, List.cons_append]

lemma mem_modifyAt {f : ContextItem → ContextItem} {x : ContextItem} :
    ∀ {cs : List ContextItem} {i : Nat}, x ∈ modifyAt cs i f →
      x ∈ cs ∨ ∃ c ∈ cs, x = f c := by
  intro cs
  induction cs with
  | nil => intro i h; simp [modifyAt] at h
  | cons c rest ih =>
    intro i h
    cases i with
    | zero =>
      rw [modifyAt] at h
      rcases List.mem_cons.mp h with h | h
      · exact Or.inr ⟨c, List.mem_cons_self c rest, h⟩
      · exact Or.inl (List.mem_cons_of_mem c h)
    | succ i =>
      rw [modifyAt] at h
      rcases List.mem_cons.mp h with h | h
      · exact Or.inl (h ▸ List.mem_cons_self c rest)
      · rcases ih h with h2 | ⟨c2, hc2, hx⟩
        · exact Or.inl (List.mem_cons_of_mem c h2)
        · exact Or.inr ⟨c2, List.mem_cons_of_mem c hc2, hx⟩

lemma lookupCtx_eq_none_iff {cs : List ContextItem} {n : String} :
    lookupCtx cs n = none ↔ ∀ c ∈ cs, c.name ≠ n := by
  induction cs with
  | nil => simp [lookupCtx]
  | cons c rest ih =>
    by_cases hc : c.name = n
    · simp [lookupCtx, hc]
    · simp [lookupCtx, hc, ih]

lemma lookupCtx_append_left {cs ds : List ContextItem} {n : String} {c : ContextItem}
    (h : lookupCtx cs n = some c) : lookupCtx (cs ++ ds) n = some c := by
  induction cs with
  | nil => simp [lookupCtx] at h
  | cons a rest ih =>
    by_cases ha : a.name = n
    · rw [lookupCtx, if_pos ha] at h
      rw [List.cons_append, lookupCtx, if_pos ha]
      exact h
    · rw [lookupCtx, if_neg ha] at h
      rw [List.cons_append, lookupCtx, if_neg ha]
      exact ih h

lemma lookupCtx_append_right {ds : List ContextItem} {n : String} :
    ∀ {cs : List ContextItem}, (∀ c ∈ cs, c.name ≠ n) →
      lookupCtx (cs ++ ds) n = lookupCtx ds n := by
  intro cs
  induction cs with
  | nil => intro _; rfl
  | cons a rest ih =>
    intro h
    have ha : a.name ≠ n := h a (List.mem_cons_self a rest)
    rw [List.cons_append, lookupCtx, if_neg ha]
    exact ih (fun c hc => h c (List.mem_cons_of_mem a hc))

lemma lookupCtx_self {c : ContextItem} :
    ∀ {cs : List ContextItem}, (namesOf cs).Nodup → c ∈ cs →
      lookupCtx cs c.name = some c := by
  intro cs
  induction cs with
  | nil => intro _ hc; simp at hc
  | cons a rest ih =>
    intro hnd hc
    rw [namesOf_cons, List.nodup_cons] at hnd
    rcases List.mem_cons.mp hc with h | h
    · subst h
      rw [lookupCtx, if_pos rfl]
    · have hne : a.name ≠ c.name := by
        intro he
        exact hnd.1 (he ▸ mem_namesOf.mpr ⟨c, h, rfl⟩)
      rw [lookupCtx, if_neg hne]
      exact ih hnd.2 h

lemma lookupCtx_modifyAt {c0 : ContextItem} {f : ContextItem → ContextItem}
    (hf : (f c0).name = c0.name) (n : String) :
    ∀ (cs : List ContextItem) (i : Nat), (namesOf cs).Nodup → cs[i]? = some c0 →
      lookupCtx (modifyAt cs i f) n
        = if n = c0.name then some (f c0) else lookupCtx cs n := by
  intro cs
  induction cs with
  | nil => intro i _ hget; simp at hget
  | cons a rest ih =>
    intro i hnd hget
    rw [namesOf_cons, List.nodup_cons] at hnd
    cases i with
    | zero =>
      simp only [List.getElem?_cons_zero, Option.some.injEq] at hget
      subst hget
      rw [modifyAt]
      by_cases hn : n = a.name
      · rw [if_pos hn, lookupCtx, if_pos (by rw [hf, hn])]
      · rw [if_neg hn, lookupCtx, if_neg (by rw [hf]; exact fun he => hn he.symm),
          lookupCtx, if_neg (fun he => hn he.symm)]
    | succ i =>
      simp only [List.getElem?_cons_succ] at hget
      rw [modifyAt]
      have hne : a.name ≠ c0.name := by
        intro he
        exact hnd.1 (he ▸ mem_namesOf.mpr ⟨c0, mem_of_get_eq hget, rfl⟩)
      by_cases hn : n = a.name
      · have hn0 : n ≠ c0.name := by rw [hn]; exact hne
        rw [if_neg hn0, lookupCtx, if_pos hn.symm, lookupCtx, if_pos hn.symm]
      · rw [lookupCtx, if_neg (fun he => hn he.symm), ih i hnd.2 hget]
        by_cases hn0 : n = c0.name
        · rw [if_pos hn0, if_pos hn0]
        · rw [if_neg hn0, if_neg hn0, lookupCtx, if_neg (fun he => hn he.symm)]

lemma findOrAdd_absent {r : Registry} {n : String}
    (h : ∀ c ∈ r.contexts, c.name ≠ n) :
    FindOrAddContext r n
      = ((r.contexts.length, mkContext n),
         { contexts := r.contexts ++ [mkContext n]
           last_used := some r.contexts.length }) := by
  have hnone : (FindContext r n).1 = none := findContext_none_iff.mpr h
  have hctx : (FindContext r n).2.contexts = r.contexts := findContext_contexts r n
  rcases hf : FindContext r n with ⟨res, r1⟩
  rw [hf] at hnone hctx
  simp only at hnone hctx
  subst hnone
  simp [FindOrAddContext, hf, hctx]

lemma findOrAdd_present {r : Registry} {n : String} {p : Nat × ContextItem}
    (h : (FindContext r n).1 = some p) :
    FindOrAddContext r n = (p, (FindContext r n).2) := by
  rcases hf : FindContext r n with ⟨res, r1⟩
  rw [hf] at h
  simp only at h
  subst h
  simp [FindOrAddContext, hf]

lemma addTest_contexts_absent {r : Registry} {cn : String}
    (h : ∀ c ∈ r.contexts, c.name ≠ cn) (fn : Bool) (un : String) (mp : Bool) :
    (AddTest r fn un cn mp).contexts
      = r.contexts ++ [addTestToCtx (mkContext cn) fn un mp] := by
  have hm := modifyAt_append_length r.contexts (mkContext cn)
    (fun c => addTestToCtx c fn un mp)
  simp [AddTest, findOrAdd_absent h, hm]

lemma addTest_contexts_present {r : Registry} {cn : String} {p : Nat × ContextItem}
    (h : (FindContext r cn).1 = some p) (fn : Bool) (un : String) (mp : Bool) :
    (AddTest r fn un cn mp).contexts
      = modifyAt r.contexts p.1 (fun c => addTestToCtx c fn un mp) := by
  simp [AddTest, findOrAdd_present h, findContext_contexts]

lemma addTestToCtx_name (c : ContextItem) (fn : Bool) (un : String) (mp : Bool) :
    (addTestToCtx c fn un mp).name = c.name := rfl

lemma addTest_namesOf_present {r : Registry} {cn : String}
    (h : ∃ c ∈ r.contexts, c.name = cn) (fn : Bool) (un : String) (mp : Bool) :
    namesOf (AddTest r fn un cn mp).contexts = namesOf r.contexts := by
  rcases hres : (FindContext r cn).1 with _ | p
  · rcases h with ⟨c, hc, hname⟩
    exact absurd hname (findContext_none_iff.mp hres c hc)
  · rw [addTest_contexts_present hres fn un mp]
    exact namesOf_modifyAt _ (fun c => addTestToCtx_name c fn un mp) r.contexts p.1

lemma addTest_namesOf_absent {r : Registry} {cn : String}
    (h : ∀ c ∈ r.contexts, c.name ≠ cn) (fn : Bool) (un : String) (mp : Bool) :
    namesOf (AddTest r fn un cn mp).contexts = namesOf r.contexts ++ [cn] := by
  rw [addTest_contexts_absent h fn un mp, namesOf_append]
  rfl

lemma addTest_nodup {r : Registry} {cn : String} (fn : Bool) (un : String) (mp : Bool)
    (hnd : (namesOf r.contexts).Nodup) :
    (namesOf (AddTest r fn un cn mp).contexts).Nodup := by
  by_cases h : ∀ c ∈ r.contexts, c.name ≠ cn
  · rw [addTest_namesOf_absent h fn un mp]
    have hnotin : cn ∉ namesOf r.contexts := by
      intro hin
      rcases mem_namesOf.mp hin with ⟨c, hc, hname⟩
      exact h c hc hname
    simp [List.nodup_append, hnd, hnotin]
  · push_neg at h
    rw [addTest_namesOf_present h fn un mp]
    exact hnd

lemma addTest_lookupCtx {r : Registry} {cn : String}
    (hnd : (namesOf r.contexts).Nodup) (fn : Bool) (un : String) (mp : Bool)
    (n : String) :
    lookupCtx (AddTest r fn un cn mp).contexts n
      = if n = cn then
          match lookupCtx r.contexts cn with
          | some c => some (addTestToCtx c fn un mp)
          | none => some (addTestToCtx (mkContext cn) fn un mp)
        else lookupCtx r.contexts n := by
  by_cases habs : ∀ c ∈ r.contexts, c.name ≠ cn
  · have hl : lookupCtx r.contexts cn = none := lookupCtx_eq_none_iff.mpr habs
    rw [addTest_contexts_absent habs fn un mp]
    by_cases hn : n = cn
    · subst hn
      rw [lookupCtx_append_right habs, hl]
      simp [lookupCtx, addTestToCtx, mkContext]
    · rcases hlk : lookupCtx r.contexts n with _ | c
      · rw [lookupCtx_append_right (lookupCtx_eq_none_iff.mp hlk), if_neg hn]
        have hname : (addTestToCtx (mkContext cn) fn un mp).name = cn := rfl
        rw [lookupCtx, if_neg (by rw [hname]; exact fun he => hn he.symm)]
        rfl
      · rw [lookupCtx_append_left hlk, if_neg hn]
  · push_neg at habs
    have hex : ¬ (FindContext r cn).1 = none := fun hno => by
      rcases habs with ⟨c, hc, hcn⟩
      exact findContext_none_iff.mp hno c hc hcn
    rcases hres : (FindContext r cn).1 with _ | p
    · exact absurd hres hex
    · obtain ⟨hg, hname⟩ := findContext_valid hres
      have hself : lookupCtx r.contexts cn = some p.2 := by
        rw [← hname]
        exact lookupCtx_self hnd (mem_of_get_eq hg)
      rw [addTest_contexts_present hres fn un mp,
        lookupCtx_modifyAt (addTestToCtx_name p.2 fn un mp) n r.contexts p.1 hnd hg,
        hname, hself]

lemma addTest_testsOf {r : Registry} {cn : String}
    (hnd : (namesOf r.contexts).Nodup) (fn : Bool) (un : String) (mp : Bool)
    (n : String) :
    testsOf (AddTest r fn un cn mp) n
      = if n = cn
        then testsOf r n ++ [{ test := fn, name := un, must_pass := mp }]
        else testsOf r n := by
  unfold testsOf
  rw [addTest_lookupCtx hnd fn un mp n]
  by_cases hn : n = cn
  · subst hn
    rcases hlk : lookupCtx r.contexts n with _ | c <;>
      simp [hlk, addTestToCtx, mkContext]
  · simp [hn]

lemma applyRegs_nodup : ∀ (regs : List Reg) (r : Registry),
    (namesOf r.contexts).Nodup → (namesOf (applyRegs r regs).contexts).Nodup := by
  intro regs
  induction regs with
  | nil => intro r h; exact h
  | cons e rest ih =>
    intro r h
    exact ih _ (addTest_nodup e.fn e.name e.must_pass h)

lemma applyRegs_namesOf : ∀ (regs : List Reg) (r : Registry),
    (namesOf r.contexts).Nodup →
    namesOf (applyRegs r regs).contexts
      = namesOf r.contexts
        ++ specFirstSeenFrom (namesOf r.contexts) (regs.map (fun e => e.context)) := by
  intro regs
  induction regs with
  | nil => intro r h; simp [applyRegs, specFirstSeenFrom]
  | cons e rest ih =>
    intro r h
    rw [show applyRegs r (e :: rest)
          = applyRegs (AddTest r e.fn e.name e.context e.must_pass) rest from rfl,
      List.map_cons, specFirstSeenFrom]
    by_cases hmem : e.context ∈ namesOf r.contexts
    · rw [if_pos hmem, ih _ (addTest_nodup e.fn e.name e.must_pass h),
        addTest_namesOf_present (mem_namesOf.mp hmem) e.fn e.name e.must_pass]
    · have habs : ∀ c ∈ r.contexts, c.name ≠ e.context := by
        intro c hc he
        exact hmem (mem_namesOf.mpr ⟨c, hc, he⟩)
      rw [if_neg hmem, ih _ (addTest_nodup e.fn e.name e.must_pass h),
        addTest_namesOf_absent habs e.fn e.name e.must_pass, List.append_assoc]
      rfl

lemma applyRegs_testsOf : ∀ (regs : List Reg) (r : Registry),
    (namesOf r.contexts).Nodup → ∀ n,
    testsOf (applyRegs r regs) n = testsOf r n ++ specUnitsFor n regs := by
  intro regs
  induction regs with
  | nil => intro r h n; simp [applyRegs, specUnitsFor]
  | cons e rest ih =>
    intro r h n
    rw [show applyRegs r (e :: rest)
          = applyRegs (AddTest r e.fn e.name e.context e.must_pass) rest from rfl,
      ih _ (addTest_nodup e.fn e.name e.must_pass h) n,
      addTest_testsOf h e.fn e.name e.must_pass n, specUnitsFor]
    by_cases hn : e.context = n
    · rw [if_pos hn, if_pos hn.symm]
      simp [toTest, hn]
    · rw [if_neg hn, if_neg (fun he => hn he.symm)]

/-- C6: for every registration sequence, the contexts produced by replaying
it from the empty registry appear in the order their names were first seen,
and each context holds exactly the tests registered under its name, in
registration order (all units of one name accumulate contiguously in that
single context). -/
theorem C6_registration_order (regs : List Reg) :
    namesOf (applyRegs emptyRegistry regs).contexts
      = specFirstSeen (regs.map (fun e => e.context))
    ∧ ∀ c ∈ (applyRegs emptyRegistry regs).contexts,
        c.tests = specUnitsFor c.name regs := by
  have hnd0 : (namesOf emptyRegistry.contexts).Nodup := by
    simp [emptyRegistry, namesOf]
  constructor
  · rw [applyRegs_namesOf regs emptyRegistry hnd0]
    rfl
  · intro c hc
    have hnd := applyRegs_nodup regs emptyRegistry hnd0
    have hself : lookupCtx (applyRegs emptyRegistry regs).contexts c.name = some c :=
      lookupCtx_self hnd hc
    have ht := applyRegs_testsOf regs emptyRegistry hnd0 c.name
    rw [show testsOf (applyRegs emptyRegistry regs) c.name = c.tests from by
        unfold testsOf
        rw [hself],
      show testsOf emptyRegistry c.name = [] from rfl] at ht
    simpa using ht

/-- Registration sequence used by the C6 and C9 witnesses: contexts "A" and
"B" interleaved. -/
def demoRegs : List Reg :=
  [ { fn := true, name := "u1", context := "A", must_pass := false },
    { fn := true, name := "u2", context := "B", must_pass := false },
    { fn := false, name := "u3", context := "A", must_pass := true } ]

/-- The "A" context `demoRegs` builds: both "A" units, contiguously. -/
def demoCtxA : ContextItem :=
  { name := "A", init := none, cleanup := none,
    tests :=
      [ { test := true, name := "u1", must_pass := false },
        { test := false, name := "u3", must_pass := true } ],
    align_chars := 5 }

/-- C6 witness: replaying `demoRegs` yields the "A" context with exactly the
"A" registrations in order. -/
theorem C6_registration_order_witness :
    demoCtxA ∈ (applyRegs emptyRegistry demoRegs).contexts
    ∧ demoCtxA.tests = specUnitsFor demoCtxA.name demoRegs :=
  ⟨by decide, (C6_registration_order demoRegs).2 demoCtxA (by decide)⟩

/-! ### Alignment invariant -/

/-- Every registered test's name fits in its context's `align_chars` with
three columns to spare. -/
def AlignInv (r : Registry) : Prop :=
  ∀ c ∈ r.contexts, ∀ t ∈ c.tests, t.name.length + 3 ≤ c.align_chars

lemma alignInv_addTestToCtx {c : ContextItem}
    (h : ∀ t ∈ c.tests, t.name.length + 3 ≤ c.align_chars)
    (fn : Bool) (un : String) (mp : Bool) (hun : un.length + 3 < 2 ^ 32) :
    ∀ t ∈ (addTestToCtx c fn un mp).tests,
      t.name.length + 3 ≤ (addTestToCtx c fn un mp).align_chars := by
  have h1 : un.length % 2 ^ 32 = un.length := Nat.mod_eq_of_lt (by omega)
  have hmod : (un.length % 2 ^ 32 + 3) % 2 ^ 32 = un.length + 3 := by
    rw [h1]
    exact Nat.mod_eq_of_lt hun
  intro t ht
  simp only [addTestToCtx, List.mem_append, List.mem_singleton] at ht
  rcases ht with ht | ht
  · have hle := h t ht
    simp only [addTestToCtx, hmod]
    split <;> omega
  · subst ht
    simp only [addTestToCtx, hmod]
    split <;> omega

lemma alignInv_findOrAdd {r : Registry} (h : AlignInv r) (cn : String) :
    ∀ x ∈ (FindOrAddContext r cn).2.contexts, ∀ t ∈ x.tests,
      t.name.length + 3 ≤ x.align_chars := by
  rcases hf : FindContext r cn with ⟨res, r2⟩
  have hctx : r2.contexts = r.contexts := by
    have hh := findContext_contexts r cn
    rw [hf] at hh
    exact hh
  cases res with
  | some q =>
    simp only [FindOrAddContext, hf]
    rw [hctx]
    exact h
  | none =>
    simp only [FindOrAddContext, hf]
    intro x hx
    rw [hctx] at hx
    rcases List.mem_append.mp hx with hx | hx
    · exact h x hx
    · simp only [List.mem_singleton] at hx
      subst hx
      intro t ht
      simp [mkContext] at ht

lemma alignInv_addTest {r : Registry} (h : AlignInv r) (fn : Bool) (un cn : String)
    (mp : Bool) (hun : un.length + 3 < 2 ^ 32) : AlignInv (AddTest r fn un cn mp) := by
  intro c hc
  have hc2 : c ∈ modifyAt (FindOrAddContext r cn).2.contexts (FindOrAddContext r cn).1.1
      (fun x => addTestToCtx x fn un mp) := by
    rcases hfo : FindOrAddContext r cn with ⟨p, r1⟩
    simpa [AddTest, hfo] using hc
  rcases mem_modifyAt hc2 with hx | ⟨c0, hc0, hceq⟩
  · exact alignInv_findOrAdd h cn c hx
  · subst hceq
    exact alignInv_addTestToCtx (alignInv_findOrAdd h cn c0 hc0) fn un mp hun

lemma alignInv_applyRegs : ∀ (regs : List Reg) (r : Registry),
    (∀ e ∈ regs, e.name.length + 3 < 2 ^ 32) →
    AlignInv r → AlignInv (applyRegs r regs) := by
  intro regs
  induction regs with
  | nil => intro r _ h; exact h
  | cons e rest ih =>
    intro r hshort h
    exact ih _ (fun x hx => hshort x (List.mem_cons_of_mem e hx))
      (alignInv_addTest h e.fn e.name e.context e.must_pass
        (hshort e (List.mem_cons_self e rest)))

/-- The number of padding dots `PrintTestName` prints for a unit: the
unsigned difference `align_chars - class_name.size()` from the source's
`for` loop bound. -/
def printDotCount (c : ContextItem) (t : TestItem) : Nat :=
  c.align_chars - t.name.length

/-- A unit name of `2^32 - 3` characters: long enough that the `uint32_t`
candidate width `uint32_t(name.size()) + 3` in `AddTest` wraps to 0. -/
def hugeName : String := String.mk (List.replicate (2 ^ 32 - 3) 'a')

/-- The registration of a unit named `hugeName` into context "A". -/
def hugeReg : Reg := { fn := true, name := hugeName, context := "A", must_pass := false }

/-- The test item `hugeReg` stores. -/
def hugeTest : TestItem := { test := true, name := hugeName, must_pass := false }

/-- The context the `hugeReg` registration builds: its stored `align_chars`
is 0 because the `uint32_t` arithmetic wrapped. -/
def hugeBuiltCtx : ContextItem :=
  { name := "A", init := none, cleanup := none, tests := [hugeTest], align_chars := 0 }

lemma hugeName_length : hugeName.length = 2 ^ 32 - 3 := by
  show (List.replicate (2 ^ 32 - 3) 'a').length = 2 ^ 32 - 3
  exact List.length_replicate _ _

lemma hugeAlign : (hugeName.length % 2 ^ 32 + 3) % 2 ^ 32 = 0 := by
  rw [hugeName_length]
  decide

lemma hugeCtx_eq : addTestToCtx (mkContext "A") true hugeName false = hugeBuiltCtx := by
  unfold addTestToCtx
  rw [hugeAlign]
  simp [mkContext, hugeBuiltCtx, hugeTest]

lemma hugeBuild : (applyRegs emptyRegistry [hugeReg]).contexts = [hugeBuiltCtx] := by
  show (AddTest emptyRegistry true hugeName "A" false).contexts = [hugeBuiltCtx]
  rw [addTest_contexts_absent (by simp [emptyRegistry]) true hugeName false, hugeCtx_eq]
  rfl

/-- C9 counterexample: registering a single unit whose name has `2^32 - 3`
characters produces a context whose stored `align_chars` is 0 — the
`uint32_t` candidate `uint32_t(name.size()) + 3` wrapped — so `align_chars`
is NOT at least the unit-name length plus 3, and the unsigned subtraction
`align_chars - name.size()` in `PrintTestName` does underflow
(`name.length` exceeds `align_chars`). -/
theorem C9_counterexample :
    hugeBuiltCtx ∈ (applyRegs emptyRegistry [hugeReg]).contexts
    ∧ hugeTest ∈ hugeBuiltCtx.tests
    ∧ ¬ (hugeTest.name.length + 3 ≤ hugeBuiltCtx.align_chars)
    ∧ hugeBuiltCtx.align_chars < hugeTest.name.length := by
  have hname : hugeTest.name = hugeName := rfl
  have halign : hugeBuiltCtx.align_chars = 0 := rfl
  have htests : hugeBuiltCtx.tests = [hugeTest] := rfl
  refine ⟨by rw [hugeBuild]; exact List.mem_singleton.mpr rfl, ?_, ?_, ?_⟩
  · rw [htests]
    exact List.mem_singleton.mpr rfl
  · rw [hname, halign, hugeName_length]
    decide
  · rw [hname, halign, hugeName_length]
    decide

/-- C9 amended: after any registration sequence in which every registered
unit name is shorter than `2^32 - 3` characters (so the `uint32_t` narrowing
in `AddTest` does not wrap), every context's `align_chars` is at least each
of its unit names' length plus 3, so the unsigned subtraction
`align_chars - name.size()` in `PrintTestName` never underflows: it is at
least 3 and exact. -/
theorem C9_align_chars_no_underflow (regs : List Reg)
    (hshort : ∀ e ∈ regs, e.name.length + 3 < 2 ^ 32) :
    ∀ c ∈ (applyRegs emptyRegistry regs).contexts, ∀ t ∈ c.tests,
      t.name.length + 3 ≤ c.align_chars
      ∧ 3 ≤ printDotCount c t
      ∧ t.name.length + printDotCount c t = c.align_chars := by
  have hinv : AlignInv (applyRegs emptyRegistry regs) := by
    apply alignInv_applyRegs regs emptyRegistry hshort
    intro c hc
    simp [emptyRegistry] at hc
  intro c hc t ht
  have h := hinv c hc t ht
  refine ⟨h, ?_, ?_⟩
  · unfold printDotCount
    omega
  · unfold printDotCount
    omega

/-- C9 witness: the alignment bound evaluated on the "A" context built by
`demoRegs`, whose unit names are all far below the truncation threshold. -/
theorem C9_align_chars_witness :
    ((demoRegs.all fun e => e.name.length + 3 < 2 ^ 32) = true
      ∧ demoCtxA ∈ (applyRegs emptyRegistry demoRegs).contexts
      ∧ ({ test := true, name := "u1", must_pass := false } : TestItem) ∈ demoCtxA.tests)
    ∧ (("u1".length + 3 ≤ demoCtxA.align_chars)
       ∧ 3 ≤ printDotCount demoCtxA { test := true, name := "u1", must_pass := false }
       ∧ "u1".length
           + printDotCount demoCtxA { test := true, name := "u1", must_pass := false }
           = demoCtxA.align_chars) :=
  ⟨⟨by decide, by decide, by decide⟩,
   C9_align_chars_no_underflow demoRegs (by decide) demoCtxA (by decide)
     { test := true, name := "u1", must_pass := false } (by decide)⟩

end UTest
